import Mathlib

/-!
Verification of the minbpe byte-level BPE tokenizer (`minbpe/basic.py`).

Texts are modelled as lists of Unicode scalar values (`List Nat`), byte
strings as lists of byte values (`List Nat`, each entry below 256).
Python dictionaries are modelled as association lists with
insertion-order iteration and overwrite-on-repeated-key semantics
(`lookupA` / `insertA`), which matches the observable behaviour of
`dict` for the operations the tokenizer performs.

A raised Python exception (`ValueError` from `max()` on an empty
mapping, `KeyError` from a missing dictionary key, `AssertionError`
from `assert vocab_size >= 256`) is modelled as `Option.none`.
-/

namespace MinBPE

/-! ## Unicode / UTF-8 model

`str.encode("utf-8")` and `bytes.decode("utf-8", errors="replace")`
from the Python standard library, modelled over scalar-value lists.
The lossy decoder consumes a maximal subpart of an ill-formed sequence
and emits one replacement character `0xFFFD` for it, which is CPython's
behaviour for `errors="replace"`.
-/

/-- A Unicode scalar value: below 0x110000 and not a surrogate. -/
def ValidScalar (c : Nat) : Prop := c < 0x110000 ∧ ¬ (0xD800 ≤ c ∧ c ≤ 0xDFFF)

instance (c : Nat) : Decidable (ValidScalar c) := by unfold ValidScalar; infer_instance

/-- UTF-8 encoding of one scalar value (1 to 4 bytes). -/
def utf8EncodeChar (c : Nat) : List Nat :=
  if c < 0x80 then [c]
  else if c < 0x800 then [0xC0 + c / 0x40, 0x80 + c % 0x40]
  else if c < 0x10000 then
    [0xE0 + c / 0x1000, 0x80 + (c / 0x40) % 0x40, 0x80 + c % 0x40]
  else
    [0xF0 + c / 0x40000, 0x80 + (c / 0x1000) % 0x40, 0x80 + (c / 0x40) % 0x40, 0x80 + c % 0x40]

/-- UTF-8 encoding of a text: concatenation of the per-scalar encodings. -/
def utf8Encode (s : List Nat) : List Nat := (s.map utf8EncodeChar).flatten

/-- Lossy UTF-8 decoding (`errors="replace"`): well-formed sequences decode
to their scalar; a maximal subpart of an ill-formed sequence is consumed and
replaced by `0xFFFD`.  Overlong forms, surrogates and out-of-range lead
bytes are ill-formed. -/
def utf8DecodeLossy : List Nat → List Nat
  | [] => []
  | b0 :: r =>
    if b0 < 0x80 then b0 :: utf8DecodeLossy r
    else if 0xC2 ≤ b0 ∧ b0 ≤ 0xDF then
      match r with
      | [] => [0xFFFD]
      | b1 :: r1 =>
        if 0x80 ≤ b1 ∧ b1 ≤ 0xBF then
          ((b0 - 0xC0) * 0x40 + (b1 - 0x80)) :: utf8DecodeLossy r1
        else 0xFFFD :: utf8DecodeLossy (b1 :: r1)
    else if 0xE0 ≤ b0 ∧ b0 ≤ 0xEF then
      match r with
      | [] => [0xFFFD]
      | b1 :: r1 =>
        if (b0 = 0xE0 ∧ 0xA0 ≤ b1 ∧ b1 ≤ 0xBF) ∨
           (b0 ≠ 0xE0 ∧ b0 ≠ 0xED ∧ 0x80 ≤ b1 ∧ b1 ≤ 0xBF) ∨
           (b0 = 0xED ∧ 0x80 ≤ b1 ∧ b1 ≤ 0x9F) then
          match r1 with
          | [] => [0xFFFD]
          | b2 :: r2 =>
            if 0x80 ≤ b2 ∧ b2 ≤ 0xBF then
              ((b0 - 0xE0) * 0x1000 + (b1 - 0x80) * 0x40 + (b2 - 0x80)) :: utf8DecodeLossy r2
            else 0xFFFD :: utf8DecodeLossy (b2 :: r2)
        else 0xFFFD :: utf8DecodeLossy (b1 :: r1)
    else if 0xF0 ≤ b0 ∧ b0 ≤ 0xF4 then
      match r with
      | [] => [0xFFFD]
      | b1 :: r1 =>
        if (b0 = 0xF0 ∧ 0x90 ≤ b1 ∧ b1 ≤ 0xBF) ∨
           (b0 ≠ 0xF0 ∧ b0 ≠ 0xF4 ∧ 0x80 ≤ b1 ∧ b1 ≤ 0xBF) ∨
           (b0 = 0xF4 ∧ 0x80 ≤ b1 ∧ b1 ≤ 0x8F) then
          match r1 with
          | [] => [0xFFFD]
          | b2 :: r2 =>
            if 0x80 ≤ b2 ∧ b2 ≤ 0xBF then
              match r2 with
              | [] => [0xFFFD]
              | b3 :: r3 =>
                if 0x80 ≤ b3 ∧ b3 ≤ 0xBF then
                  ((b0 - 0xF0) * 0x40000 + (b1 - 0x80) * 0x1000 +
                    (b2 - 0x80) * 0x40 + (b3 - 0x80)) :: utf8DecodeLossy r3
                else 0xFFFD :: utf8DecodeLossy (b3 :: r3)
            else 0xFFFD :: utf8DecodeLossy (b2 :: r2)
        else 0xFFFD :: utf8DecodeLossy (b1 :: r1)
    else 0xFFFD :: utf8DecodeLossy r

/-! ## Python dictionaries as association lists -/

/-- Dictionary lookup: first (and, with `insertA`, only) binding of the key. -/
def lookupA {α β : Type} [DecidableEq α] : List (α × β) → α → Option β
  | [], _ => none
  | (k, v) :: l, a => if k = a then some v else lookupA l a

/-- Dictionary update `d[k] = v`: overwrite an existing binding in place,
else append a new binding at the end (insertion order preserved). -/
def insertA {α β : Type} [DecidableEq α] : List (α × β) → α → β → List (α × β)
  | [], a, v => [(a, v)]
  | (k, w) :: l, a, v => if k = a then (a, v) :: l else (k, w) :: insertA l a v

/-! ## The two leaf routines of `minbpe/base.py`

`minbpe/base.py` itself is not among the provided sources (only
`minbpe/basic.py`, which imports `get_stats` and `merge` from it), so
these two leaves are modelled from the specification.
-/

/-- One counting step of the statistics: `counts[pair] = counts.get(pair, 0) + 1`. -/
def bumpStat : List ((Nat × Nat) × Nat) → (Nat × Nat) → List ((Nat × Nat) × Nat)
  | [], p => [(p, 1)]
  | (q, c) :: l, p => if q = p then (q, c + 1) :: l else (q, c) :: bumpStat l p

/-- The list of adjacent pairs of a token sequence (`zip(ids, ids[1:])`). -/
def adjPairs (l : List Nat) : List (Nat × Nat) := l.zip l.tail

/-- Modelled from the spec: `get_stats` of `minbpe/base.py` is missing from
the sources.  Given a token sequence and an optional existing statistics
mapping, increment the count of `(seq[i], seq[i+1])` for every index
`i` in `[0, len-2]`, accumulating into the given mapping. -/
def get_stats (ids : List Nat) (counts : List ((Nat × Nat) × Nat) := []) :
    List ((Nat × Nat) × Nat) :=
  (adjPairs ids).foldl bumpStat counts

/-- Aggregated statistics over a list of chunks: the pattern-mode loop
`for chunked_ids in ids: get_stats(chunked_ids, stats)` starting from `{}`. -/
def statsOfChunks (chunks : List (List Nat)) : List ((Nat × Nat) × Nat) :=
  chunks.foldl (fun acc c => get_stats c acc) []

/-- Modelled from the spec: `merge` of `minbpe/base.py` is missing from the
sources.  Replace every non-overlapping left-to-right occurrence of `pair`
in `ids` by `idx`, resuming the scan immediately after each replacement. -/
def merge (ids : List Nat) (pair : Nat × Nat) (idx : Nat) : List Nat :=
  match ids with
  | a :: b :: rest =>
    if (a, b) = pair then idx :: merge rest pair idx
    else a :: merge (b :: rest) pair idx
  | short => short

/-! ## Selection of the pair to merge -/

/-- `max(stats, key=stats.get)`: iterate the keys in insertion order and keep
the first key whose count is maximal (Python's `max` replaces the running
best only on a strictly greater key value).  `none` models the `ValueError`
raised on an empty mapping. -/
def maxByValue (stats : List ((Nat × Nat) × Nat)) : Option (Nat × Nat) :=
  match stats with
  | [] => none
  | e :: rest => some ((rest.foldl (fun best q => if best.2 < q.2 then q else best) e).1)

/-- Comparison used by `min(stats, key=lambda p: merges.get(p, inf))`:
`rankBefore a b` holds when rank `a` is strictly below rank `b`, a missing
rank being infinity. -/
def rankBefore : Option Nat → Option Nat → Bool
  | some x, some y => x < y
  | some _, none => true
  | none, _ => false

/-- `min(stats, key=lambda p: merges.get(p, inf))` over the keys of the
statistics, in iteration order; Python's `min` keeps the running best on
ties.  `none` only on an empty key list. -/
def minByRank (merges : List ((Nat × Nat) × Nat)) (keys : List (Nat × Nat)) :
    Option (Nat × Nat) :=
  match keys with
  | [] => none
  | k :: rest =>
    some (rest.foldl
      (fun best q => if rankBefore (lookupA merges q) (lookupA merges best) then q else best) k)

/-! ## Lemmas about adjacent pairs and the Merge Applicator -/

theorem merge_nil (p : Nat × Nat) (idx : Nat) : merge [] p idx = [] := by
  rw [merge.eq_def]

theorem merge_single (a : Nat) (p : Nat × Nat) (idx : Nat) : merge [a] p idx = [a] := by
  rw [merge.eq_def]

theorem merge_cons_cons (a b : Nat) (rest : List Nat) (p : Nat × Nat) (idx : Nat) :
    merge (a :: b :: rest) p idx =
      if (a, b) = p then idx :: merge rest p idx else a :: merge (b :: rest) p idx := by
  rw [merge.eq_def]

theorem adjPairs_nil : adjPairs [] = [] := rfl

theorem adjPairs_single (a : Nat) : adjPairs [a] = [] := rfl

theorem adjPairs_cons_cons (a b : Nat) (l : List Nat) :
    adjPairs (a :: b :: l) = (a, b) :: adjPairs (b :: l) := rfl

theorem mem_adjPairs_cons {r : Nat × Nat} {x : Nat} {l : List Nat} :
    r ∈ adjPairs (x :: l) ↔ (∃ y, l.head? = some y ∧ r = (x, y)) ∨ r ∈ adjPairs l := by
  cases l with
  | nil => simp [adjPairs]
  | cons y t =>
    rw [adjPairs_cons_cons]
    simp [List.mem_cons]

theorem mem_adjPairs_tail {r : Nat × Nat} {x : Nat} {l : List Nat}
    (h : r ∈ adjPairs l) : r ∈ adjPairs (x :: l) :=
  mem_adjPairs_cons.mpr (Or.inr h)

theorem fst_snd_mem_of_mem_adjPairs {r : Nat × Nat} {l : List Nat}
    (h : r ∈ adjPairs l) : r.1 ∈ l ∧ r.2 ∈ l := by
  induction l with
  | nil => simp [adjPairs] at h
  | cons x t ih =>
    rcases mem_adjPairs_cons.mp h with ⟨y, hy, rfl⟩ | h'
    · exact ⟨List.mem_cons_self x t, List.mem_cons_of_mem x (List.mem_of_mem_head? hy)⟩
    · exact ⟨List.mem_cons_of_mem x (ih h').1, List.mem_cons_of_mem x (ih h').2⟩

theorem adjPairs_ne_nil {l : List Nat} (h : 2 ≤ l.length) : adjPairs l ≠ [] := by
  match l, h with
  | a :: b :: t, _ => rw [adjPairs_cons_cons]; simp

theorem merge_length_le (ids : List Nat) (p : Nat × Nat) (idx : Nat) :
    (merge ids p idx).length ≤ ids.length := by
  induction ids, p, idx using merge.induct with
  | case1 idx a b rest ih => rw [merge_cons_cons]; simp; omega
  | case2 p idx a b rest hne ih => rw [merge_cons_cons]; simp [hne]; simpa using ih
  | case3 p idx short hshort =>
    match short, hshort with
    | [], _ => rw [merge_nil]
    | [a], _ => rw [merge_single]
    | a :: b :: rest, hs => exact ((hs a b rest) rfl).elim

theorem merge_length_lt {ids : List Nat} {p : Nat × Nat} (idx : Nat)
    (h : p ∈ adjPairs ids) : (merge ids p idx).length < ids.length := by
  induction ids, p, idx using merge.induct with
  | case1 idx a b rest ih =>
    rw [merge_cons_cons]; simp
    have := merge_length_le rest (a, b) idx
    omega
  | case2 p idx a b rest hne ih =>
    rw [merge_cons_cons]; simp [hne]
    rcases mem_adjPairs_cons.mp h with ⟨y, hy, rfl⟩ | h'
    · simp at hy; exact absurd (by simp [hy]) hne
    · exact ih h'
  | case3 p idx short hshort =>
    match short, hshort with
    | [], _ => simp [adjPairs] at h
    | [a], _ => simp [adjPairs] at h
    | a :: b :: rest, hs => exact ((hs a b rest) rfl).elim

theorem merge_of_not_mem {ids : List Nat} {p : Nat × Nat} (idx : Nat)
    (h : p ∉ adjPairs ids) : merge ids p idx = ids := by
  induction ids, p, idx using merge.induct with
  | case1 idx a b rest ih =>
    exact absurd (by rw [adjPairs_cons_cons]; exact List.mem_cons_self _ _) h
  | case2 p idx a b rest hne ih =>
    rw [merge_cons_cons]; simp [hne]
    exact ih (fun hm => h (mem_adjPairs_tail hm))
  | case3 p idx short hshort =>
    match short, hshort with
    | [], _ => rw [merge_nil]
    | [a], _ => rw [merge_single]
    | a :: b :: rest, hs => exact ((hs a b rest) rfl).elim

theorem merge_head? {ids : List Nat} (p : Nat × Nat) (idx : Nat) (h : ids ≠ []) :
    (merge ids p idx).head? = some idx ∨ (merge ids p idx).head? = ids.head? := by
  match ids with
  | [a] => right; rw [merge_single]
  | a :: b :: rest =>
    rw [merge_cons_cons]
    by_cases hp : (a, b) = p
    · simp [hp]
    · simp [hp]

theorem mem_of_mem_merge {t : Nat} {ids : List Nat} {p : Nat × Nat} {idx : Nat}
    (h : t ∈ merge ids p idx) : t ∈ ids ∨ t = idx := by
  induction ids, p, idx using merge.induct with
  | case1 idx a b rest ih =>
    rw [merge_cons_cons] at h; simp at h
    rcases h with rfl | h'
    · exact Or.inr rfl
    · rcases ih h' with h'' | h''
      · exact Or.inl (by simp [h''])
      · exact Or.inr h''
  | case2 p idx a b rest hne ih =>
    rw [merge_cons_cons] at h; simp [hne] at h
    rcases h with rfl | h'
    · exact Or.inl (by simp)
    · rcases ih h' with h'' | h''
      · simp at h''
        rcases h'' with rfl | h''
        · exact Or.inl (by simp)
        · exact Or.inl (by simp [h''])
      · exact Or.inr h''
  | case3 p idx short hshort =>
    match short, hshort with
    | [], _ => rw [merge_nil] at h; simp at h
    | [a], _ => rw [merge_single] at h; simp at h; exact Or.inl (by simp [h])
    | a :: b :: rest, hs => exact ((hs a b rest) rfl).elim

/-! ## Lemmas about association lists -/

theorem lookupA_mem {α β : Type} [DecidableEq α] {l : List (α × β)} {k : α} {v : β}
    (h : lookupA l k = some v) : (k, v) ∈ l := by
  induction l with
  | nil => simp [lookupA] at h
  | cons e t ih =>
    obtain ⟨k', v'⟩ := e
    rw [lookupA] at h
    by_cases hk : k' = k
    · simp [hk] at h; simp [hk, h]
    · simp [hk] at h; exact List.mem_cons_of_mem _ (ih h)

theorem lookupA_append {α β : Type} [DecidableEq α] (l1 l2 : List (α × β)) (k : α) :
    lookupA (l1 ++ l2) k =
      match lookupA l1 k with
      | some v => some v
      | none => lookupA l2 k := by
  induction l1 with
  | nil => simp [lookupA]
  | cons e t ih =>
    obtain ⟨k', v'⟩ := e
    by_cases hk : k' = k
    · simp [lookupA, hk]
    · simp [lookupA, hk, ih]

theorem insertA_of_not_mem {α β : Type} [DecidableEq α] {l : List (α × β)} {k : α}
    (h : k ∉ l.map Prod.fst) (v : β) : insertA l k v = l ++ [(k, v)] := by
  induction l with
  | nil => rfl
  | cons e t ih =>
    obtain ⟨k', v'⟩ := e
    rw [List.map_cons] at h
    simp only [List.mem_cons, not_or] at h
    rw [insertA, if_neg (fun he => h.1 he.symm), ih h.2]
    rfl

theorem lookupA_append_single_ne {α β : Type} [DecidableEq α] (l : List (α × β))
    {k k' : α} (v : β) (h : k ≠ k') : lookupA (l ++ [(k, v)]) k' = lookupA l k' := by
  rw [lookupA_append]
  match hl : lookupA l k' with
  | some w => rfl
  | none => simp [lookupA, h]

theorem lookupA_append_single_self {α β : Type} [DecidableEq α] {l : List (α × β)}
    {k : α} (v : β) (h : lookupA l k = none) : lookupA (l ++ [(k, v)]) k = some v := by
  rw [lookupA_append, h]
  simp [lookupA]

/-- `lookupA` on the identity byte vocabulary prefix `{i: bytes([i]) for i in range(n)}`. -/
theorem lookupA_range_map (n k : Nat) :
    lookupA ((List.range n).map (fun i => (i, [i]))) k =
      if k < n then some [k] else none := by
  induction n with
  | zero => simp [lookupA]
  | succ n ih =>
    rw [List.range_succ, List.map_append, lookupA_append, ih]
    by_cases h : k < n
    · simp [h, Nat.lt_succ_of_lt h]
    · by_cases h' : k = n
      · simp [h, h', lookupA]
      · have h2 : ¬ k < n + 1 := by omega
        have h3 : ¬ (n = k) := fun e => h' e.symm
        simp [h, h', h2, h3, lookupA]

/-! ## Lemmas about the statistics keys -/

theorem mem_keys_bumpStat {q p : Nat × Nat} {stats : List ((Nat × Nat) × Nat)} :
    q ∈ (bumpStat stats p).map Prod.fst ↔ q ∈ stats.map Prod.fst ∨ q = p := by
  induction stats with
  | nil => simp [bumpStat]
  | cons e t ih =>
    obtain ⟨r, c⟩ := e
    rw [bumpStat]
    by_cases hr : r = p
    · subst hr; by_cases hq : q = r <;> simp [hq]
    · simp only [if_neg hr, List.map_cons, List.mem_cons, ih]
      tauto

theorem mem_keys_foldl_bumpStat {q : Nat × Nat} (pairs : List (Nat × Nat)) :
    ∀ stats : List ((Nat × Nat) × Nat),
      (q ∈ (pairs.foldl bumpStat stats).map Prod.fst ↔ q ∈ stats.map Prod.fst ∨ q ∈ pairs) := by
  induction pairs with
  | nil => intro stats; simp
  | cons p t ih =>
    intro stats
    rw [List.foldl_cons, ih, mem_keys_bumpStat]
    simp [List.mem_cons]
    tauto

theorem mem_keys_get_stats {q : Nat × Nat} {ids : List Nat}
    {counts : List ((Nat × Nat) × Nat)} :
    q ∈ (get_stats ids counts).map Prod.fst ↔ q ∈ counts.map Prod.fst ∨ q ∈ adjPairs ids :=
  mem_keys_foldl_bumpStat (adjPairs ids) counts

theorem mem_keys_statsOfChunks {q : Nat × Nat} {chunks : List (List Nat)} :
    q ∈ (statsOfChunks chunks).map Prod.fst ↔ ∃ c ∈ chunks, q ∈ adjPairs c := by
  have gen : ∀ (cs : List (List Nat)) (acc : List ((Nat × Nat) × Nat)),
      (q ∈ (cs.foldl (fun acc c => get_stats c acc) acc).map Prod.fst ↔
        q ∈ acc.map Prod.fst ∨ ∃ c ∈ cs, q ∈ adjPairs c) := by
    intro cs
    induction cs with
    | nil => intro acc; simp
    | cons c t ih =>
      intro acc
      rw [List.foldl_cons, ih, mem_keys_get_stats]
      simp
      tauto
  have := gen chunks []
  simpa [statsOfChunks] using this

/-! ## Lemmas about `maxByValue` and `minByRank` -/

theorem maxByValue_mem {stats : List ((Nat × Nat) × Nat)} {p : Nat × Nat}
    (h : maxByValue stats = some p) : p ∈ stats.map Prod.fst := by
  match stats with
  | [] => simp [maxByValue] at h
  | e :: rest =>
    rw [maxByValue] at h
    simp at h
    have gen : ∀ (l : List ((Nat × Nat) × Nat)) (b : (Nat × Nat) × Nat),
        l.foldl (fun best q => if best.2 < q.2 then q else best) b = b ∨
        l.foldl (fun best q => if best.2 < q.2 then q else best) b ∈ l := by
      intro l
      induction l with
      | nil => intro b; exact Or.inl rfl
      | cons x t ih =>
        intro b
        rw [List.foldl_cons]
        by_cases hc : b.2 < x.2
        · simp only [if_pos hc]
          rcases ih x with h' | h'
          · exact Or.inr (by simp [h'])
          · exact Or.inr (List.mem_cons_of_mem _ h')
        · simp only [if_neg hc]
          rcases ih b with h' | h'
          · exact Or.inl h'
          · exact Or.inr (List.mem_cons_of_mem _ h')
    rcases gen rest e with h' | h'
    · rw [h'] at h; exact List.mem_map.mpr ⟨e, by simp, h⟩
    · exact List.mem_map.mpr ⟨_, List.mem_cons_of_mem _ h', h⟩

theorem minByRank_eq_none {merges : List ((Nat × Nat) × Nat)} {keys : List (Nat × Nat)} :
    minByRank merges keys = none ↔ keys = [] := by
  match keys with
  | [] => simp [minByRank]
  | k :: rest => rw [minByRank]; simp

theorem rankBefore_irrefl (a : Option Nat) : rankBefore a a = false := by
  cases a <;> simp [rankBefore]

theorem rankBefore_shift {x b res : Option Nat} (h1 : rankBefore x res = false)
    (h2 : rankBefore x b = true) : rankBefore b res = false := by
  cases x <;> cases b <;> cases res <;> simp [rankBefore] at * <;> omega

theorem rankBefore_chain {x b res : Option Nat} (h1 : rankBefore b res = false)
    (h2 : rankBefore x b = false) : rankBefore x res = false := by
  cases x <;> cases b <;> cases res <;> simp [rankBefore] at * <;> omega

theorem minByRank_spec {merges : List ((Nat × Nat) × Nat)} {keys : List (Nat × Nat)}
    {p : Nat × Nat} (h : minByRank merges keys = some p) :
    p ∈ keys ∧ ∀ q ∈ keys, rankBefore (lookupA merges q) (lookupA merges p) = false := by
  match keys with
  | [] => simp [minByRank] at h
  | k :: rest =>
    rw [minByRank] at h
    simp only [Option.some.injEq] at h
    have gen : ∀ (l : List (Nat × Nat)) (b : Nat × Nat),
        (l.foldl (fun best q =>
            if rankBefore (lookupA merges q) (lookupA merges best) then q else best) b = b ∨
         l.foldl (fun best q =>
            if rankBefore (lookupA merges q) (lookupA merges best) then q else best) b ∈ l) ∧
        (∀ q, (q = b ∨ q ∈ l) →
          rankBefore (lookupA merges q)
            (lookupA merges (l.foldl (fun best q =>
              if rankBefore (lookupA merges q) (lookupA merges best) then q else best) b)) = false) := by
      intro l
      induction l with
      | nil =>
        intro b
        refine ⟨Or.inl rfl, ?_⟩
        rintro q (rfl | hq)
        · exact rankBefore_irrefl _
        · simp at hq
      | cons x t ih =>
        intro b
        rw [List.foldl_cons]
        by_cases hc : rankBefore (lookupA merges x) (lookupA merges b) = true
        · simp only [hc, if_pos rfl, if_true]
          obtain ⟨ihmem, ihmin⟩ := ih x
          constructor
          · rcases ihmem with h' | h'
            · exact Or.inr (by simp [h'])
            · exact Or.inr (List.mem_cons_of_mem _ h')
          · rintro q (rfl | hq)
            · exact rankBefore_shift (ihmin x (Or.inl rfl)) hc
            · simp at hq
              rcases hq with rfl | hq
              · exact ihmin q (Or.inl rfl)
              · exact ihmin q (Or.inr hq)
        · rw [Bool.not_eq_true] at hc
          simp only [hc, if_neg, Bool.false_eq_true, not_false_eq_true]
          obtain ⟨ihmem, ihmin⟩ := ih b
          constructor
          · rcases ihmem with h' | h'
            · exact Or.inl h'
            · exact Or.inr (List.mem_cons_of_mem _ h')
          · rintro q (rfl | hq)
            · exact ihmin q (Or.inl rfl)
            · simp at hq
              rcases hq with rfl | hq
              · exact rankBefore_chain (ihmin b (Or.inl rfl)) hc
              · exact ihmin q (Or.inr hq)
    obtain ⟨gmem, gmin⟩ := gen rest k
    subst h
    constructor
    · rcases gmem with h' | h'
      · rw [h']; exact List.mem_cons_self _ _
      · exact List.mem_cons_of_mem _ h'
    · intro q hq
      simp at hq
      rcases hq with rfl | hq
      · exact gmin q (Or.inl rfl)
      · exact gmin q (Or.inr hq)

theorem minByRank_min {merges : List ((Nat × Nat) × Nat)} {keys : List (Nat × Nat)}
    {p q : Nat × Nat} {j : Nat} (h : minByRank merges keys = some p)
    (hq : q ∈ keys) (hj : lookupA merges q = some j) :
    ∃ i, lookupA merges p = some i ∧ i ≤ j := by
  have := (minByRank_spec h).2 q hq
  rw [hj] at this
  match hp : lookupA merges p with
  | none => rw [hp] at this; simp [rankBefore] at this
  | some i =>
    rw [hp] at this
    simp [rankBefore] at this
    exact ⟨i, rfl, this⟩

/-! ## The tokenizer of `minbpe/basic.py`

`BasicTokenizer` is modelled by its trained state, a `Model` holding the
merge table and the vocabulary.  The regular-expression chunk splitter is
an external collaborator: pattern-mode entry points take the list of
chunks produced by `re.findall` as an argument instead of running the
regex engine.
-/

/-- The trained state of a tokenizer: `self.merges` and `self.vocab`. -/
structure Model where
  merges : List ((Nat × Nat) × Nat)
  vocab : List (Nat × List Nat)
  deriving DecidableEq, Repr

/-- `{idx: bytes([idx]) for idx in range(256)}`. -/
def initVocab : List (Nat × List Nat) := (List.range 256).map (fun i => (i, [i]))

/-- The `while len(ids) >= 2` loop of `_encode_chunk`: find the adjacent pair
with the lowest merge index; if no adjacent pair is in the merge table, stop;
otherwise apply the merge and repeat.  (With at least two tokens the
statistics are never empty, so the `none` branch of `minByRank` is
unreachable.) -/
def encode_loop (merges : List ((Nat × Nat) × Nat)) (ids : List Nat) : List Nat :=
  if h2 : 2 ≤ ids.length then
    match hmin : minByRank merges ((get_stats ids).map Prod.fst) with
    | none => ids
    | some pair =>
      match lookupA merges pair with
      | none => ids
      | some idx =>
        have hlt : (merge ids pair idx).length < ids.length := by
          have hmem := (minByRank_spec hmin).1
          have : pair ∈ adjPairs ids := by
            rcases mem_keys_get_stats.mp hmem with h | h
            · simp at h
            · exact h
          exact merge_length_lt idx this
        encode_loop merges (merge ids pair idx)
  else ids
  termination_by ids.length

/-- `_encode_chunk`: UTF-8 encode the chunk text, then run the merge loop. -/
def encode_chunk (merges : List ((Nat × Nat) × Nat)) (text : List Nat) : List Nat :=
  encode_loop merges (utf8Encode text)

/-- `encode` given the list of text chunks (in pattern mode the output of
`re.findall`, in raw mode the single-element list `[text]`): encode each
chunk independently and concatenate the results in chunk order. -/
def encode_with_chunks (merges : List ((Nat × Nat) × Nat))
    (chunks : List (List Nat)) : List Nat :=
  (chunks.map (encode_chunk merges)).flatten

/-- `encode` in raw mode (`self.pattern is None`): the whole text is one chunk. -/
def encode_raw (merges : List ((Nat × Nat) × Nat)) (text : List Nat) : List Nat :=
  encode_with_chunks merges [text]

/-- `b"".join(self.vocab[idx] for idx in ids)`; `none` models the `KeyError`
raised when an id has no vocabulary entry. -/
def decodeBytes (vocab : List (Nat × List Nat)) : List Nat → Option (List Nat)
  | [] => some []
  | i :: rest =>
    match lookupA vocab i, decodeBytes vocab rest with
    | some v, some r => some (v ++ r)
    | _, _ => none

/-- `decode`: join the vocabulary expansions of the ids, then decode the byte
string as UTF-8 with `errors="replace"`. -/
def decode (vocab : List (Nat × List Nat)) (ids : List Nat) : Option (List Nat) :=
  (decodeBytes vocab ids).map utf8DecodeLossy

/-- The training loop of `train` in raw mode, iterating over the remaining
number of merges with `i` the current iteration index.  `none` models the
`ValueError` raised by `max()` on empty statistics and the (unreachable)
`KeyError` of a missing vocabulary entry. -/
def trainRawLoop : Nat → Nat → List Nat → List ((Nat × Nat) × Nat) →
    List (Nat × List Nat) → Option Model
  | 0, _, _, merges, vocab => some ⟨merges, vocab⟩
  | n + 1, i, ids, merges, vocab =>
    match maxByValue (get_stats ids) with
    | none => none
    | some pair =>
      match lookupA vocab pair.1, lookupA vocab pair.2 with
      | some v1, some v2 =>
        trainRawLoop n (i + 1) (merge ids pair (256 + i))
          (insertA merges pair (256 + i)) (insertA vocab (256 + i) (v1 ++ v2))
      | _, _ => none

/-- The training loop of `train` in pattern mode: statistics are aggregated
across the chunks and the merge is applied to every chunk. -/
def trainChunksLoop : Nat → Nat → List (List Nat) → List ((Nat × Nat) × Nat) →
    List (Nat × List Nat) → Option Model
  | 0, _, _, merges, vocab => some ⟨merges, vocab⟩
  | n + 1, i, chunks, merges, vocab =>
    match maxByValue (statsOfChunks chunks) with
    | none => none
    | some pair =>
      match lookupA vocab pair.1, lookupA vocab pair.2 with
      | some v1, some v2 =>
        trainChunksLoop n (i + 1) (chunks.map (fun c => merge c pair (256 + i)))
          (insertA merges pair (256 + i)) (insertA vocab (256 + i) (v1 ++ v2))
      | _, _ => none

/-- `train(text, vocab_size)` in raw mode: `assert vocab_size >= 256` (modelled
as `none` on failure), UTF-8 encode the text, run `vocab_size - 256` merge
iterations. -/
def train_raw (text : List Nat) (vocabSize : Nat) : Option Model :=
  if 256 ≤ vocabSize then trainRawLoop (vocabSize - 256) 0 (utf8Encode text) [] initVocab
  else none

/-- `train(text, vocab_size)` in pattern mode, given the chunk texts produced
by `re.findall(self.compiled_pattern, text)`. -/
def train_pattern (textChunks : List (List Nat)) (vocabSize : Nat) : Option Model :=
  if 256 ≤ vocabSize then
    trainChunksLoop (vocabSize - 256) 0 (textChunks.map utf8Encode) [] initVocab
  else none

/-! ## Lemmas about the UTF-8 model -/

theorem utf8DecodeLossy_nil : utf8DecodeLossy [] = [] := by
  rw [utf8DecodeLossy.eq_def]

theorem utf8DecodeLossy_ascii (b0 : Nat) (r : List Nat) (h : b0 < 0x80) :
    utf8DecodeLossy (b0 :: r) = b0 :: utf8DecodeLossy r := by
  rw [utf8DecodeLossy.eq_def]
  simp [h]

theorem utf8DecodeLossy_two (b0 b1 : Nat) (r : List Nat)
    (h0 : 0xC2 ≤ b0 ∧ b0 ≤ 0xDF) (h1 : 0x80 ≤ b1 ∧ b1 ≤ 0xBF) :
    utf8DecodeLossy (b0 :: b1 :: r) =
      ((b0 - 0xC0) * 0x40 + (b1 - 0x80)) :: utf8DecodeLossy r := by
  rw [utf8DecodeLossy.eq_def]
  have ha : ¬ b0 < 0x80 := by omega
  simp [ha, h0.1, h0.2, h1.1, h1.2]

theorem utf8DecodeLossy_three (b0 b1 b2 : Nat) (r : List Nat)
    (h0 : 0xE0 ≤ b0 ∧ b0 ≤ 0xEF)
    (h1 : (b0 = 0xE0 ∧ 0xA0 ≤ b1 ∧ b1 ≤ 0xBF) ∨
          (b0 ≠ 0xE0 ∧ b0 ≠ 0xED ∧ 0x80 ≤ b1 ∧ b1 ≤ 0xBF) ∨
          (b0 = 0xED ∧ 0x80 ≤ b1 ∧ b1 ≤ 0x9F))
    (h2 : 0x80 ≤ b2 ∧ b2 ≤ 0xBF) :
    utf8DecodeLossy (b0 :: b1 :: b2 :: r) =
      ((b0 - 0xE0) * 0x1000 + (b1 - 0x80) * 0x40 + (b2 - 0x80)) :: utf8DecodeLossy r := by
  rw [utf8DecodeLossy.eq_def]
  have ha : ¬ b0 < 0x80 := by omega
  have hb : ¬ (0xC2 ≤ b0 ∧ b0 ≤ 0xDF) := by omega
  simp [ha, hb, h0.1, h0.2, h1, h2.1, h2.2]

theorem utf8DecodeLossy_four (b0 b1 b2 b3 : Nat) (r : List Nat)
    (h0 : 0xF0 ≤ b0 ∧ b0 ≤ 0xF4)
    (h1 : (b0 = 0xF0 ∧ 0x90 ≤ b1 ∧ b1 ≤ 0xBF) ∨
          (b0 ≠ 0xF0 ∧ b0 ≠ 0xF4 ∧ 0x80 ≤ b1 ∧ b1 ≤ 0xBF) ∨
          (b0 = 0xF4 ∧ 0x80 ≤ b1 ∧ b1 ≤ 0x8F))
    (h2 : 0x80 ≤ b2 ∧ b2 ≤ 0xBF) (h3 : 0x80 ≤ b3 ∧ b3 ≤ 0xBF) :
    utf8DecodeLossy (b0 :: b1 :: b2 :: b3 :: r) =
      ((b0 - 0xF0) * 0x40000 + (b1 - 0x80) * 0x1000 +
        (b2 - 0x80) * 0x40 + (b3 - 0x80)) :: utf8DecodeLossy r := by
  rw [utf8DecodeLossy.eq_def]
  have ha : ¬ b0 < 0x80 := by omega
  have hb : ¬ (0xC2 ≤ b0 ∧ b0 ≤ 0xDF) := by omega
  have hc : ¬ (0xE0 ≤ b0 ∧ b0 ≤ 0xEF) := by omega
  simp [ha, hb, hc, h0.1, h0.2, h1, h2.1, h2.2, h3.1, h3.2]

theorem utf8Encode_nil : utf8Encode [] = [] := rfl

theorem utf8Encode_cons (c : Nat) (s : List Nat) :
    utf8Encode (c :: s) = utf8EncodeChar c ++ utf8Encode s := by
  simp [utf8Encode]

theorem utf8Encode_append (s t : List Nat) :
    utf8Encode (s ++ t) = utf8Encode s ++ utf8Encode t := by
  simp [utf8Encode]

theorem utf8Encode_flatten (chunks : List (List Nat)) :
    utf8Encode chunks.flatten = (chunks.map utf8Encode).flatten := by
  induction chunks with
  | nil => rfl
  | cons c t ih => simp [utf8Encode_append, ih]

/-- Decoding the encoding of one valid scalar, in front of anything. -/
theorem utf8DecodeLossy_encodeChar {c : Nat} (hc : ValidScalar c) (r : List Nat) :
    utf8DecodeLossy (utf8EncodeChar c ++ r) = c :: utf8DecodeLossy r := by
  obtain ⟨hlt, hsur⟩ := hc
  by_cases h1 : c < 0x80
  · rw [utf8EncodeChar, if_pos h1, List.singleton_append, utf8DecodeLossy_ascii c r h1]
  · by_cases h2 : c < 0x800
    · have hv : (0xC0 + c / 0x40 - 0xC0) * 0x40 + (0x80 + c % 0x40 - 0x80) = c := by omega
      rw [utf8EncodeChar, if_neg h1, if_pos h2, List.cons_append, List.singleton_append,
        utf8DecodeLossy_two (0xC0 + c / 0x40) (0x80 + c % 0x40) r
          (by constructor <;> omega) (by constructor <;> omega), hv]
    · by_cases h3 : c < 0x10000
      · have hv : (0xE0 + c / 0x1000 - 0xE0) * 0x1000 + (0x80 + c / 0x40 % 0x40 - 0x80) * 0x40 +
            (0x80 + c % 0x40 - 0x80) = c := by omega
        rw [utf8EncodeChar, if_neg h1, if_neg h2, if_pos h3, List.cons_append,
          List.cons_append, List.singleton_append,
          utf8DecodeLossy_three (0xE0 + c / 0x1000) (0x80 + c / 0x40 % 0x40) (0x80 + c % 0x40)
            r (by constructor <;> omega) (by omega) (by constructor <;> omega), hv]
      · have hv : (0xF0 + c / 0x40000 - 0xF0) * 0x40000 + (0x80 + c / 0x1000 % 0x40 - 0x80) * 0x1000 +
            (0x80 + c / 0x40 % 0x40 - 0x80) * 0x40 + (0x80 + c % 0x40 - 0x80) = c := by omega
        rw [utf8EncodeChar, if_neg h1, if_neg h2, if_neg h3, List.cons_append,
          List.cons_append, List.cons_append, List.singleton_append,
          utf8DecodeLossy_four (0xF0 + c / 0x40000) (0x80 + c / 0x1000 % 0x40)
            (0x80 + c / 0x40 % 0x40) (0x80 + c % 0x40) r
            (by constructor <;> omega) (by omega)
            (by constructor <;> omega) (by constructor <;> omega), hv]

/-- Round trip of the UTF-8 model on well-formed text. -/
theorem utf8DecodeLossy_utf8Encode {s : List Nat} (h : ∀ c ∈ s, ValidScalar c) :
    utf8DecodeLossy (utf8Encode s) = s := by
  induction s with
  | nil => rw [utf8Encode_nil, utf8DecodeLossy_nil]
  | cons c t ih =>
    rw [utf8Encode_cons, utf8DecodeLossy_encodeChar (h c (by simp)),
      ih (fun d hd => h d (by simp [hd]))]

theorem utf8EncodeChar_lt_256 {c : Nat} (hc : ValidScalar c) :
    ∀ b ∈ utf8EncodeChar c, b < 256 := by
  obtain ⟨hlt, hsur⟩ := hc
  intro b hb
  rw [utf8EncodeChar] at hb
  by_cases h1 : c < 0x80
  · simp [h1] at hb; omega
  · by_cases h2 : c < 0x800
    · simp [h1, h2] at hb; rcases hb with rfl | rfl <;> omega
    · by_cases h3 : c < 0x10000
      · simp [h1, h2, h3] at hb; rcases hb with rfl | rfl | rfl <;> omega
      · simp [h1, h2, h3] at hb; rcases hb with rfl | rfl | rfl | rfl <;> omega

theorem utf8Encode_lt_256 {s : List Nat} (h : ∀ c ∈ s, ValidScalar c) :
    ∀ b ∈ utf8Encode s, b < 256 := by
  intro b hb
  rw [utf8Encode, List.mem_flatten] at hb
  obtain ⟨l, hl, hbl⟩ := hb
  obtain ⟨c, hc, rfl⟩ := List.mem_map.mp hl
  exact utf8EncodeChar_lt_256 (h c hc) b hbl

/-! ## Lemmas about decoding -/

/-- The vocabulary explains every recorded merge by concatenation. -/
def VocabCompat (merges : List ((Nat × Nat) × Nat)) (vocab : List (Nat × List Nat)) : Prop :=
  ∀ pr ∈ merges, ∃ v1 v2, lookupA vocab pr.1.1 = some v1 ∧
    lookupA vocab pr.1.2 = some v2 ∧ lookupA vocab pr.2 = some (v1 ++ v2)

theorem decodeBytes_id {vocab : List (Nat × List Nat)}
    (hbyte : ∀ b, b < 256 → lookupA vocab b = some [b]) {bs : List Nat}
    (hbs : ∀ b ∈ bs, b < 256) : decodeBytes vocab bs = some bs := by
  induction bs with
  | nil => rfl
  | cons b t ih =>
    rw [decodeBytes, hbyte b (hbs b (by simp)), ih (fun x hx => hbs x (by simp [hx]))]
    rfl

/-- Applying a recorded merge to a token sequence does not change the byte
string it decodes to. -/
theorem decodeBytes_merge {merges : List ((Nat × Nat) × Nat)}
    {vocab : List (Nat × List Nat)} (hcompat : VocabCompat merges vocab)
    (ids : List Nat) (p : Nat × Nat) (idx : Nat) (hmem : (p, idx) ∈ merges) :
    decodeBytes vocab (merge ids p idx) = decodeBytes vocab ids := by
  induction ids, p, idx using merge.induct with
  | case1 idx a b rest ih =>
    obtain ⟨v1, v2, hv1, hv2, hv12⟩ := hcompat ((a, b), idx) hmem
    simp only at hv1 hv2 hv12
    rw [merge_cons_cons, if_pos rfl, decodeBytes, hv12, decodeBytes, hv1, decodeBytes, hv2,
      ih hmem]
    match decodeBytes vocab rest with
    | none => rfl
    | some r => simp
  | case2 p idx a b rest hne ih =>
    rw [merge_cons_cons, if_neg hne, decodeBytes, decodeBytes, ih hmem]
  | case3 p idx short hshort =>
    match short, hshort with
    | [], _ => rw [merge_nil]
    | [a], _ => rw [merge_single]
    | a :: b :: rest, hs => exact ((hs a b rest) rfl).elim

/-! ## Lemmas about the encode loop -/

theorem encode_loop_short {merges : List ((Nat × Nat) × Nat)} {ids : List Nat}
    (h : ids.length < 2) : encode_loop merges ids = ids := by
  rw [encode_loop.eq_def, dif_neg (by omega)]

theorem encode_loop_no_merge {merges : List ((Nat × Nat) × Nat)} {ids : List Nat}
    (h : ∀ q ∈ adjPairs ids, lookupA merges q = none) :
    encode_loop merges ids = ids := by
  rw [encode_loop.eq_def]
  by_cases h2 : 2 ≤ ids.length
  · rw [dif_pos h2]
    split
    · rfl
    · rename_i pair hmin
      have hadj : pair ∈ adjPairs ids := by
        rcases mem_keys_get_stats.mp (minByRank_spec hmin).1 with hx | hx
        · simp at hx
        · exact hx
      split
      · rfl
      · rename_i idx hlook
        rw [h pair hadj] at hlook
        cases hlook
  · rw [dif_neg h2]

/-- One unfolding of the encode loop when the selected pair is in the table. -/
theorem encode_loop_step_eq {merges : List ((Nat × Nat) × Nat)} {ids : List Nat}
    {p : Nat × Nat} {idx : Nat} (h2 : 2 ≤ ids.length)
    (hmin : minByRank merges ((get_stats ids).map Prod.fst) = some p)
    (hlook : lookupA merges p = some idx) :
    encode_loop merges ids = encode_loop merges (merge ids p idx) := by
  conv_lhs => rw [encode_loop.eq_def]
  rw [dif_pos h2]
  split
  · rename_i hmin'
    rw [hmin'] at hmin
    cases hmin
  · rename_i pair hmin'
    rw [hmin'] at hmin
    cases hmin
    split
    · rename_i hlook'
      rw [hlook'] at hlook
      cases hlook
    · rename_i idx' hlook'
      rw [hlook'] at hlook
      cases hlook
      rfl

/-- The encode loop does not change the byte string its input decodes to. -/
theorem decodeBytes_encode_loop {merges : List ((Nat × Nat) × Nat)}
    {vocab : List (Nat × List Nat)} (hcompat : VocabCompat merges vocab)
    (ids : List Nat) :
    decodeBytes vocab (encode_loop merges ids) = decodeBytes vocab ids := by
  induction ids using encode_loop.induct merges with
  | case1 ids h2 hmin =>
    rw [encode_loop.eq_def, dif_pos h2]
    split
    · rfl
    · rename_i pair hmin'
      exact Option.noConfusion (hmin.symm.trans hmin')
  | case2 ids h2 pair hmin hlook =>
    rw [encode_loop.eq_def, dif_pos h2]
    split
    · rename_i hmin'
      exact Option.noConfusion (hmin'.symm.trans hmin)
    · rename_i pair' hmin'
      have hpp : pair' = pair := by
        have := hmin'.symm.trans hmin
        exact (Option.some.injEq _ _ ▸ this)
      subst hpp
      split
      · rfl
      · rename_i idx' hlook'
        exact Option.noConfusion (hlook.symm.trans hlook')
  | case3 ids h2 pair hmin idx hlook hlt ih =>
    rw [encode_loop_step_eq h2 hmin hlook, ih,
      decodeBytes_merge hcompat ids pair idx (lookupA_mem hlook)]
  | case4 ids h2 =>
    rw [encode_loop_short (by omega)]

/-! ## Adjacent pairs after a merge -/

/-- Every adjacent pair of the merged sequence was already adjacent before the
merge or touches the freshly minted id: merging never creates a new adjacency
between two old tokens. -/
theorem adjPairs_merge_subset {r : Nat × Nat} {ids : List Nat} {p : Nat × Nat}
    {idx : Nat} (h : r ∈ adjPairs (merge ids p idx)) :
    r ∈ adjPairs ids ∨ r.1 = idx ∨ r.2 = idx := by
  induction ids, p, idx using merge.induct with
  | case1 idx a b rest ih =>
    rw [merge_cons_cons, if_pos rfl] at h
    rcases mem_adjPairs_cons.mp h with ⟨y, hy, rfl⟩ | h'
    · exact Or.inr (Or.inl rfl)
    · rcases ih h' with h'' | h''
      · exact Or.inl (mem_adjPairs_tail (mem_adjPairs_tail h''))
      · exact Or.inr h''
  | case2 p idx a b rest hne ih =>
    rw [merge_cons_cons, if_neg hne] at h
    rcases mem_adjPairs_cons.mp h with ⟨y, hy, rfl⟩ | h'
    · rcases merge_head? p idx (List.cons_ne_nil b rest) with hh | hh
      · rw [hh] at hy
        cases hy
        exact Or.inr (Or.inr rfl)
      · rw [hh] at hy
        cases hy
        exact Or.inl (by rw [adjPairs_cons_cons]; exact List.mem_cons_self _ _)
    · rcases ih h' with h'' | h''
      · exact Or.inl (mem_adjPairs_tail h'')
      · exact Or.inr h''
  | case3 p idx short hshort =>
    match short, hshort with
    | [], _ => rw [merge_nil] at h; exact Or.inl h
    | [a], _ => rw [merge_single] at h; exact Or.inl h
    | a :: b :: rest, hs => exact ((hs a b rest) rfl).elim

/-- After merging `p` into a fresh id, `p` is no longer adjacent anywhere. -/
theorem not_mem_adjPairs_merge_self {ids : List Nat} {p : Nat × Nat} {idx : Nat}
    (h1 : p.1 ≠ idx) (h2 : p.2 ≠ idx) : p ∉ adjPairs (merge ids p idx) := by
  induction ids, p, idx using merge.induct with
  | case1 idx a b rest ih =>
    intro h
    rw [merge_cons_cons, if_pos rfl] at h
    rcases mem_adjPairs_cons.mp h with ⟨y, hy, he⟩ | h'
    · exact h1 (by rw [he])
    · exact ih h1 h2 h'
  | case2 p idx a b rest hne ih =>
    intro h
    rw [merge_cons_cons, if_neg hne] at h
    rcases mem_adjPairs_cons.mp h with ⟨y, hy, he⟩ | h'
    · rcases merge_head? p idx (List.cons_ne_nil b rest) with hh | hh
      · rw [hh] at hy
        cases hy
        exact h2 (by rw [he])
      · rw [hh] at hy
        cases hy
        exact hne (by rw [he])
    · exact ih h1 h2 h'
  | case3 p idx short hshort =>
    match short, hshort with
    | [], _ => rw [merge_nil]; simp [adjPairs]
    | [a], _ => rw [merge_single]; simp [adjPairs]
    | a :: b :: rest, hs => exact ((hs a b rest) rfl).elim

theorem lookupA_eq_none {α β : Type} [DecidableEq α] {l : List (α × β)} {k : α} :
    lookupA l k = none ↔ k ∉ l.map Prod.fst := by
  induction l with
  | nil => simp [lookupA]
  | cons e t ih =>
    obtain ⟨k', v'⟩ := e
    by_cases hk : k' = k
    · subst hk; simp [lookupA]
    · have hk' : ¬ k = k' := fun he => hk he.symm
      simp [lookupA, hk, ih, hk']

/-! ## The training-loop invariant -/

/-- State invariant of the training loop before iteration `i`: all tokens in
the chunks are below the next free id, the merge ids recorded so far are
exactly `256, ..., 256+i-1` in order, both components of every recorded pair
predate the id it produced, recorded pairs are no longer adjacent in any
chunk, byte ids keep their identity expansion, every recorded merge is
explained by vocabulary concatenation, the vocabulary domain is exactly
`[0, 256+i)`, and recorded pairs are pairwise distinct. -/
structure Inv (i : Nat) (chunks : List (List Nat)) (merges : List ((Nat × Nat) × Nat))
    (vocab : List (Nat × List Nat)) : Prop where
  tok_lt : ∀ c ∈ chunks, ∀ t ∈ c, t < 256 + i
  snd_eq : merges.map Prod.snd = (List.range i).map (256 + ·)
  comp_lt : ∀ pr ∈ merges, pr.1.1 < pr.2 ∧ pr.1.2 < pr.2
  gone : ∀ pr ∈ merges, ∀ c ∈ chunks, pr.1 ∉ adjPairs c
  byte_vocab : ∀ b, b < 256 → lookupA vocab b = some [b]
  concat : VocabCompat merges vocab
  dom : ∀ k, (lookupA vocab k).isSome ↔ k < 256 + i
  nodup : (merges.map Prod.fst).Nodup

theorem Inv.snd_lt {i : Nat} {chunks : List (List Nat)}
    {merges : List ((Nat × Nat) × Nat)} {vocab : List (Nat × List Nat)}
    (hinv : Inv i chunks merges vocab) {pr : (Nat × Nat) × Nat} (h : pr ∈ merges) :
    pr.2 < 256 + i := by
  have : pr.2 ∈ merges.map Prod.snd := List.mem_map.mpr ⟨pr, h, rfl⟩
  rw [hinv.snd_eq] at this
  obtain ⟨j, hj, hje⟩ := List.mem_map.mp this
  rw [List.mem_range] at hj
  omega

theorem Inv_init (chunks : List (List Nat)) (h : ∀ c ∈ chunks, ∀ t ∈ c, t < 256) :
    Inv 0 chunks [] initVocab where
  tok_lt := by simpa using h
  snd_eq := by simp
  comp_lt := by simp
  gone := by simp
  byte_vocab := fun b hb => by rw [initVocab, lookupA_range_map, if_pos hb]
  concat := by intro pr h; simp at h
  dom := fun k => by rw [initVocab, lookupA_range_map]; by_cases hk : k < 256 <;> simp [hk]
  nodup := by simp

/-- One training iteration preserves the invariant. -/
theorem Inv.step {i : Nat} {chunks : List (List Nat)} {merges : List ((Nat × Nat) × Nat)}
    {vocab : List (Nat × List Nat)} (hinv : Inv i chunks merges vocab)
    {pair : Nat × Nat} (hmax : maxByValue (statsOfChunks chunks) = some pair)
    {v1 v2 : List Nat} (hv1 : lookupA vocab pair.1 = some v1)
    (hv2 : lookupA vocab pair.2 = some v2) :
    Inv (i + 1) (chunks.map (fun c => merge c pair (256 + i)))
      (insertA merges pair (256 + i)) (insertA vocab (256 + i) (v1 ++ v2)) := by
  obtain ⟨c0, hc0, hpc0⟩ := mem_keys_statsOfChunks.mp (maxByValue_mem hmax)
  have hp1 : pair.1 < 256 + i := hinv.tok_lt c0 hc0 _ (fst_snd_mem_of_mem_adjPairs hpc0).1
  have hp2 : pair.2 < 256 + i := hinv.tok_lt c0 hc0 _ (fst_snd_mem_of_mem_adjPairs hpc0).2
  have hkey : pair ∉ merges.map Prod.fst := by
    intro hk
    obtain ⟨x, hxm, hxf⟩ := List.mem_map.mp hk
    exact (hxf ▸ hinv.gone x hxm c0 hc0) hpc0
  have hmergesA : insertA merges pair (256 + i) = merges ++ [(pair, 256 + i)] :=
    insertA_of_not_mem hkey _
  have hvnone : lookupA vocab (256 + i) = none := by
    rcases hl : lookupA vocab (256 + i) with _ | v
    · rfl
    · have hs : (lookupA vocab (256 + i)).isSome := by rw [hl]; rfl
      rw [hinv.dom] at hs
      omega
  have hvocabA : insertA vocab (256 + i) (v1 ++ v2) = vocab ++ [(256 + i, v1 ++ v2)] :=
    insertA_of_not_mem (lookupA_eq_none.mp hvnone) _
  constructor
  · intro c' hc' t ht
    obtain ⟨c, hc, rfl⟩ := List.mem_map.mp hc'
    rcases mem_of_mem_merge ht with h' | h'
    · have := hinv.tok_lt c hc t h'
      omega
    · omega
  · rw [hmergesA, List.map_append, hinv.snd_eq, List.range_succ, List.map_append]
    rfl
  · rw [hmergesA]
    intro pr hpr
    rcases List.mem_append.mp hpr with hold | hnew
    · exact hinv.comp_lt pr hold
    · simp at hnew
      subst hnew
      exact ⟨hp1, hp2⟩
  · rw [hmergesA]
    intro pr hpr c' hc'
    obtain ⟨c, hc, rfl⟩ := List.mem_map.mp hc'
    rcases List.mem_append.mp hpr with hold | hnew
    · intro hadj
      rcases adjPairs_merge_subset hadj with h' | h' | h'
      · exact hinv.gone pr hold c hc h'
      · have hcl := (hinv.comp_lt pr hold).1
        have hsl := hinv.snd_lt hold
        omega
      · have hcl := (hinv.comp_lt pr hold).2
        have hsl := hinv.snd_lt hold
        omega
    · simp at hnew
      subst hnew
      exact not_mem_adjPairs_merge_self (by simp; omega) (by simp; omega)
  · intro b hb
    rw [hvocabA, lookupA_append_single_ne _ _ (by omega)]
    exact hinv.byte_vocab b hb
  · rw [hmergesA, hvocabA]
    intro pr hpr
    rcases List.mem_append.mp hpr with hold | hnew
    · obtain ⟨w1, w2, h1, h2, h12⟩ := hinv.concat pr hold
      have hcl1 := (hinv.comp_lt pr hold).1
      have hcl2 := (hinv.comp_lt pr hold).2
      have hsl := hinv.snd_lt hold
      exact ⟨w1, w2,
        by rw [lookupA_append_single_ne _ _ (by omega)]; exact h1,
        by rw [lookupA_append_single_ne _ _ (by omega)]; exact h2,
        by rw [lookupA_append_single_ne _ _ (by omega)]; exact h12⟩
    · simp at hnew
      subst hnew
      exact ⟨v1, v2,
        by simp only; rw [lookupA_append_single_ne _ _ (by omega)]; exact hv1,
        by simp only; rw [lookupA_append_single_ne _ _ (by omega)]; exact hv2,
        by simp only; exact lookupA_append_single_self _ hvnone⟩
  · intro k
    rw [hvocabA]
    by_cases hk : k = 256 + i
    · subst hk
      rw [lookupA_append_single_self _ hvnone]
      simp
    · rw [lookupA_append_single_ne _ _ (fun he => hk he.symm), hinv.dom]
      omega
  · rw [hmergesA, List.map_append, List.nodup_append]
    refine ⟨hinv.nodup, by simp, ?_⟩
    intro a ha hb
    simp at hb
    subst hb
    exact hkey ha

/-- A successful pattern-mode training run ends in a state satisfying the
invariant. -/
theorem trainChunksLoop_inv : ∀ (n i : Nat) (chunks : List (List Nat))
    (merges : List ((Nat × Nat) × Nat)) (vocab : List (Nat × List Nat)) (model : Model),
    trainChunksLoop n i chunks merges vocab = some model →
    Inv i chunks merges vocab →
    ∃ i' chunks', Inv i' chunks' model.merges model.vocab := by
  intro n
  induction n with
  | zero =>
    intro i chunks merges vocab model h hinv
    rw [trainChunksLoop] at h
    cases h
    exact ⟨i, chunks, hinv⟩
  | succ n ih =>
    intro i chunks merges vocab model h hinv
    rw [trainChunksLoop] at h
    cases hmax : maxByValue (statsOfChunks chunks) with
    | none =>
      rw [hmax] at h
      exact Option.noConfusion h
    | some pair =>
      simp only [hmax] at h
      obtain ⟨c0, hc0, hpc0⟩ := mem_keys_statsOfChunks.mp (maxByValue_mem hmax)
      have h1s : (lookupA vocab pair.1).isSome := by
        rw [hinv.dom]
        exact hinv.tok_lt c0 hc0 _ (fst_snd_mem_of_mem_adjPairs hpc0).1
      have h2s : (lookupA vocab pair.2).isSome := by
        rw [hinv.dom]
        exact hinv.tok_lt c0 hc0 _ (fst_snd_mem_of_mem_adjPairs hpc0).2
      obtain ⟨v1, hv1⟩ := Option.isSome_iff_exists.mp h1s
      obtain ⟨v2, hv2⟩ := Option.isSome_iff_exists.mp h2s
      simp only [hv1, hv2] at h
      exact ih _ _ _ _ _ h (hinv.step hmax hv1 hv2)

/-- Raw-mode training is pattern-mode training on the single chunk `[ids]`. -/
theorem trainRawLoop_eq : ∀ (n i : Nat) (ids : List Nat)
    (merges : List ((Nat × Nat) × Nat)) (vocab : List (Nat × List Nat)),
    trainRawLoop n i ids merges vocab = trainChunksLoop n i [ids] merges vocab := by
  intro n
  induction n with
  | zero => intro i ids merges vocab; rfl
  | succ n ih =>
    intro i ids merges vocab
    have hst : statsOfChunks [ids] = get_stats ids := rfl
    rw [trainRawLoop, trainChunksLoop, hst]
    cases hmax : maxByValue (get_stats ids) with
    | none => rfl
    | some pair =>
      show (match lookupA vocab pair.1, lookupA vocab pair.2 with
            | some v1, some v2 =>
              trainRawLoop n (i + 1) (merge ids pair (256 + i))
                (insertA merges pair (256 + i)) (insertA vocab (256 + i) (v1 ++ v2))
            | _, _ => none) =
          (match lookupA vocab pair.1, lookupA vocab pair.2 with
            | some v1, some v2 =>
              trainChunksLoop n (i + 1) ([ids].map (fun c => merge c pair (256 + i)))
                (insertA merges pair (256 + i)) (insertA vocab (256 + i) (v1 ++ v2))
            | _, _ => none)
      cases lookupA vocab pair.1 with
      | none => rfl
      | some v1 =>
        cases lookupA vocab pair.2 with
        | none => rfl
        | some v2 => exact ih (i + 1) (merge ids pair (256 + i)) _ _

/-- A successful raw-mode training run ends in a state satisfying the
invariant. -/
theorem train_raw_inv {text : List Nat} {vs : Nat} {model : Model}
    (hvalid : ∀ c ∈ text, ValidScalar c) (h : train_raw text vs = some model) :
    ∃ i' chunks', Inv i' chunks' model.merges model.vocab := by
  rw [train_raw] at h
  by_cases hv : 256 ≤ vs
  · rw [if_pos hv, trainRawLoop_eq] at h
    refine trainChunksLoop_inv _ _ _ _ _ _ h (Inv_init _ ?_)
    intro c hc t ht
    simp at hc
    subst hc
    exact utf8Encode_lt_256 hvalid t ht
  · rw [if_neg hv] at h
    exact Option.noConfusion h

/-- Pattern-mode entry point: a successful run ends in an invariant state. -/
theorem train_pattern_inv {textChunks : List (List Nat)} {vs : Nat} {model : Model}
    (hvalid : ∀ ch ∈ textChunks, ∀ c ∈ ch, ValidScalar c)
    (h : train_pattern textChunks vs = some model) :
    ∃ i' chunks', Inv i' chunks' model.merges model.vocab := by
  rw [train_pattern] at h
  by_cases hv : 256 ≤ vs
  · rw [if_pos hv] at h
    refine trainChunksLoop_inv _ _ _ _ _ _ h (Inv_init _ ?_)
    intro c hc t ht
    obtain ⟨ch, hch, rfl⟩ := List.mem_map.mp hc
    exact utf8Encode_lt_256 (hvalid ch hch) t ht
  · rw [if_neg hv] at h
    exact Option.noConfusion h

/-- When at least one adjacent pair of `ids` is in the merge table, the encode
loop performs exactly one merge step, on an adjacent pair of lowest merge id. -/
theorem encode_loop_progress {merges : List ((Nat × Nat) × Nat)} {ids : List Nat}
    (h2 : 2 ≤ ids.length) (hex : ∃ q ∈ adjPairs ids, (lookupA merges q).isSome) :
    ∃ p idx, p ∈ adjPairs ids ∧ lookupA merges p = some idx ∧
      (∀ q ∈ adjPairs ids, ∀ j, lookupA merges q = some j → idx ≤ j) ∧
      encode_loop merges ids = encode_loop merges (merge ids p idx) := by
  obtain ⟨q, hq, hqs⟩ := hex
  obtain ⟨j0, hj0⟩ := Option.isSome_iff_exists.mp hqs
  have hqkeys : q ∈ (get_stats ids).map Prod.fst := mem_keys_get_stats.mpr (Or.inr hq)
  cases hmin : minByRank merges ((get_stats ids).map Prod.fst) with
  | none =>
    rw [minByRank_eq_none] at hmin
    rw [hmin] at hqkeys
    simp at hqkeys
  | some p =>
    have hpadj : p ∈ adjPairs ids := by
      rcases mem_keys_get_stats.mp (minByRank_spec hmin).1 with hx | hx
      · simp at hx
      · exact hx
    obtain ⟨i, hpi, hij⟩ := minByRank_min hmin hqkeys hj0
    refine ⟨p, i, hpadj, hpi, ?_, encode_loop_step_eq h2 hmin hpi⟩
    intro q' hq' j hj
    obtain ⟨i', hpi', hi'j⟩ := minByRank_min hmin (mem_keys_get_stats.mpr (Or.inr hq')) hj
    rw [hpi] at hpi'
    cases hpi'
    exact hi'j

theorem decodeBytes_append (vocab : List (Nat × List Nat)) (l1 l2 : List Nat) :
    decodeBytes vocab (l1 ++ l2) =
      match decodeBytes vocab l1, decodeBytes vocab l2 with
      | some x, some y => some (x ++ y)
      | _, _ => none := by
  induction l1 with
  | nil =>
    rw [List.nil_append]
    match decodeBytes vocab l2 with
    | some y => rfl
    | none => rfl
  | cons i t ih =>
    rw [List.cons_append, decodeBytes, decodeBytes, ih]
    match lookupA vocab i, decodeBytes vocab t, decodeBytes vocab l2 with
    | none, _, _ => rfl
    | some v, none, _ => rfl
    | some v, some x, none => rfl
    | some v, some x, some y => simp

theorem decodeBytes_eq_none {vocab : List (Nat × List Nat)} {ids : List Nat} :
    decodeBytes vocab ids = none ↔ ∃ i ∈ ids, lookupA vocab i = none := by
  induction ids with
  | nil => simp [decodeBytes]
  | cons i t ih =>
    rw [decodeBytes]
    constructor
    · intro h
      match hl : lookupA vocab i, hd : decodeBytes vocab t with
      | none, _ => exact ⟨i, by simp, hl⟩
      | some v, none =>
        obtain ⟨i', hi', hl'⟩ := ih.mp hd
        exact ⟨i', by simp [hi'], hl'⟩
      | some v, some r => rw [hl, hd] at h; cases h
    · rintro ⟨i', hi', hl'⟩
      rcases List.mem_cons.mp hi' with rfl | hmem
      · rw [hl']
      · match hl : lookupA vocab i, hd : decodeBytes vocab t with
        | none, _ => rfl
        | some v, none => rfl
        | some v, some r =>
          have : decodeBytes vocab t = none := ih.mpr ⟨i', hmem, hl'⟩
          rw [hd] at this
          cases this

/-- Decoding the chunked encoding of a chunk list recovers the UTF-8 bytes of
the whole flattened text. -/
theorem decodeBytes_encode_with_chunks {merges : List ((Nat × Nat) × Nat)}
    {vocab : List (Nat × List Nat)} (hcompat : VocabCompat merges vocab)
    (hbyte : ∀ b, b < 256 → lookupA vocab b = some [b])
    (chunks : List (List Nat)) (hval : ∀ ch ∈ chunks, ∀ c ∈ ch, ValidScalar c) :
    decodeBytes vocab (encode_with_chunks merges chunks) =
      some (utf8Encode chunks.flatten) := by
  induction chunks with
  | nil => rfl
  | cons ch t ih =>
    have hch : decodeBytes vocab (encode_chunk merges ch) = some (utf8Encode ch) := by
      rw [encode_chunk, decodeBytes_encode_loop hcompat,
        decodeBytes_id hbyte (utf8Encode_lt_256 (hval ch (by simp)))]
    have henc : encode_with_chunks merges (ch :: t) =
        encode_chunk merges ch ++ encode_with_chunks merges t := by
      rw [encode_with_chunks, encode_with_chunks, List.map_cons, List.flatten_cons]
    rw [henc, decodeBytes_append, hch, ih (fun c hc => hval c (by simp [hc])),
      List.flatten_cons, utf8Encode_append]

/-- If lossy decoding emits no replacement character, the input byte string
was well formed: it is exactly the UTF-8 encoding of the decoded text.
Contrapositively, a byte string containing any ill-formed subsequence decodes
with at least one replacement character substituted. -/
theorem utf8Encode_utf8DecodeLossy :
    ∀ bs : List Nat, 0xFFFD ∉ utf8DecodeLossy bs → utf8Encode (utf8DecodeLossy bs) = bs := by
  intro bs
  induction bs using utf8DecodeLossy.induct with
  | case1 => intro _; rfl
  | case2 b0 r hb ih =>
    intro h
    rw [utf8DecodeLossy_ascii b0 r hb] at h ⊢
    simp only [List.mem_cons, not_or] at h
    rw [utf8Encode_cons, ih h.2, utf8EncodeChar, if_pos hb]
    rfl
  | case3 b0 hna hld =>
    intro h
    exfalso
    apply h
    rw [utf8DecodeLossy.eq_def]
    simp [hna, hld]
  | case4 b0 hna hld b1 r1 hcont ih =>
    intro h
    rw [utf8DecodeLossy_two b0 b1 r1 hld hcont] at h ⊢
    simp only [List.mem_cons, not_or] at h
    rw [utf8Encode_cons, ih h.2, utf8EncodeChar,
      if_neg (by omega), if_pos (by omega)]
    have e1 : 0xC0 + ((b0 - 0xC0) * 0x40 + (b1 - 0x80)) / 0x40 = b0 := by omega
    have e2 : 0x80 + ((b0 - 0xC0) * 0x40 + (b1 - 0x80)) % 0x40 = b1 := by omega
    rw [e1, e2]
    rfl
  | case5 b0 hna hld b1 r1 hbad ih =>
    intro h
    exfalso
    apply h
    rw [utf8DecodeLossy.eq_def]
    simp [hna, hld, hbad]
  | case6 b0 hna hn2 hld =>
    intro h
    exfalso
    apply h
    rw [utf8DecodeLossy.eq_def]
    simp [hna, hn2, hld]
  | case7 b0 hna hn2 hld b1 hcond =>
    intro h
    exfalso
    apply h
    rw [utf8DecodeLossy.eq_def]
    simp [hna, hn2, hld, hcond]
  | case8 b0 hna hn2 hld b1 hcond b2 r2 hcont ih =>
    intro h
    rw [utf8DecodeLossy_three b0 b1 b2 r2 hld hcond hcont] at h ⊢
    simp only [List.mem_cons, not_or] at h
    rw [utf8Encode_cons, ih h.2, utf8EncodeChar,
      if_neg (by omega), if_neg (by omega), if_pos (by omega)]
    have e1 : 0xE0 + ((b0 - 0xE0) * 0x1000 + (b1 - 0x80) * 0x40 + (b2 - 0x80)) / 0x1000 = b0 := by
      omega
    have e2 : 0x80 + ((b0 - 0xE0) * 0x1000 + (b1 - 0x80) * 0x40 + (b2 - 0x80)) / 0x40 % 0x40 = b1 := by
      omega
    have e3 : 0x80 + ((b0 - 0xE0) * 0x1000 + (b1 - 0x80) * 0x40 + (b2 - 0x80)) % 0x40 = b2 := by
      omega
    rw [e1, e2, e3]
    rfl
  | case9 b0 hna hn2 hld b1 hcond b2 r2 hbad ih =>
    intro h
    exfalso
    apply h
    rw [utf8DecodeLossy.eq_def]
    simp [hna, hn2, hld, hcond, hbad]
  | case10 b0 hna hn2 hld b1 r1 hncond ih =>
    intro h
    exfalso
    apply h
    rw [utf8DecodeLossy.eq_def]
    simp [hna, hn2, hld, hncond]
  | case11 b0 hna hn2 hn3 hld =>
    intro h
    exfalso
    apply h
    rw [utf8DecodeLossy.eq_def]
    simp [hna, hn2, hn3, hld]
  | case12 b0 hna hn2 hn3 hld b1 hcond =>
    intro h
    exfalso
    apply h
    rw [utf8DecodeLossy.eq_def]
    simp [hna, hn2, hn3, hld, hcond]
  | case13 b0 hna hn2 hn3 hld b1 hcond b2 hcont =>
    intro h
    exfalso
    apply h
    rw [utf8DecodeLossy.eq_def]
    simp [hna, hn2, hn3, hld, hcond, hcont]
  | case14 b0 hna hn2 hn3 hld b1 hcond b2 hcont b3 r3 hcont3 ih =>
    intro h
    rw [utf8DecodeLossy_four b0 b1 b2 b3 r3 hld hcond hcont hcont3] at h ⊢
    simp only [List.mem_cons, not_or] at h
    rw [utf8Encode_cons, ih h.2, utf8EncodeChar,
      if_neg (by omega), if_neg (by omega), if_neg (by omega)]
    have e1 : 0xF0 + ((b0 - 0xF0) * 0x40000 + (b1 - 0x80) * 0x1000 +
        (b2 - 0x80) * 0x40 + (b3 - 0x80)) / 0x40000 = b0 := by omega
    have e2 : 0x80 + ((b0 - 0xF0) * 0x40000 + (b1 - 0x80) * 0x1000 +
        (b2 - 0x80) * 0x40 + (b3 - 0x80)) / 0x1000 % 0x40 = b1 := by omega
    have e3 : 0x80 + ((b0 - 0xF0) * 0x40000 + (b1 - 0x80) * 0x1000 +
        (b2 - 0x80) * 0x40 + (b3 - 0x80)) / 0x40 % 0x40 = b2 := by omega
    have e4 : 0x80 + ((b0 - 0xF0) * 0x40000 + (b1 - 0x80) * 0x1000 +
        (b2 - 0x80) * 0x40 + (b3 - 0x80)) % 0x40 = b3 := by omega
    rw [e1, e2, e3, e4]
    rfl
  | case15 b0 hna hn2 hn3 hld b1 hcond b2 hcont b3 r3 hbad ih =>
    intro h
    exfalso
    apply h
    rw [utf8DecodeLossy.eq_def]
    simp [hna, hn2, hn3, hld, hcond, hcont, hbad]
  | case16 b0 hna hn2 hn3 hld b1 hcond b2 r2 hbad ih =>
    intro h
    exfalso
    apply h
    rw [utf8DecodeLossy.eq_def]
    simp [hna, hn2, hn3, hld, hcond, hbad]
  | case17 b0 hna hn2 hn3 hld b1 r1 hncond ih =>
    intro h
    exfalso
    apply h
    rw [utf8DecodeLossy.eq_def]
    simp [hna, hn2, hn3, hld, hncond]
  | case18 b0 r hna hn2 hn3 hn4 ih =>
    intro h
    exfalso
    apply h
    rw [utf8DecodeLossy.eq_def]
    simp [hna, hn2, hn3, hn4]

/-! ## Claim theorems -/

set_option maxRecDepth 8000

/-- C2: the claim says that when the aggregated pair statistics are empty at
some training iteration (e.g. the tokenized input has length at most 1),
`train` stops early and returns successfully.  The code has no such check:
it calls `max(stats, key=stats.get)` on the empty mapping, which raises
`ValueError` (modelled as `none`).  Concretely, the one-byte text
`"a"` with `vocab_size = 300` has empty statistics at the very first
iteration, and training fails instead of returning. -/
theorem C2_train_errors_on_empty_stats :
    get_stats (utf8Encode [97]) = [] ∧ train_raw [97] 300 = none := by
  constructor
  · rfl
  · decide

/-- C6: the Merge Applicator (modelled from the spec, `minbpe/base.py` not
being among the sources) leaves a sequence without an occurrence of the pair
unchanged, replaces a matched pair by the replacement id and resumes
immediately after it, copies a non-matching head and continues the scan, and
maps `[5,5,5]` with pair `(5,5)`, replacement 99 to `[99,5]`. -/
theorem C6_merge_applicator :
    (∀ (ids : List Nat) (p : Nat × Nat) (idx : Nat), p ∉ adjPairs ids →
      merge ids p idx = ids) ∧
    (∀ (a b idx : Nat) (rest : List Nat),
      merge (a :: b :: rest) (a, b) idx = idx :: merge rest (a, b) idx) ∧
    (∀ (a b idx : Nat) (rest : List Nat) (p : Nat × Nat), (a, b) ≠ p →
      merge (a :: b :: rest) p idx = a :: merge (b :: rest) p idx) ∧
    merge [5, 5, 5] (5, 5) 99 = [99, 5] :=
  ⟨fun _ p idx h => merge_of_not_mem idx h,
   fun a b idx rest => by rw [merge_cons_cons, if_pos rfl],
   fun a b idx rest p h => by rw [merge_cons_cons, if_neg h],
   by decide⟩

/-- Witness for C6 at concrete inputs. -/
theorem C6_merge_applicator_witness :
    merge [1, 2, 3] (9, 9) 7 = [1, 2, 3] ∧
    merge [4, 4, 5] (4, 4) 300 = [300, 5] ∧
    merge [1, 4, 4] (4, 4) 300 = [1, 300] := by
  refine ⟨C6_merge_applicator.1 [1, 2, 3] (9, 9) 7 (by decide), ?_, ?_⟩
  · rw [C6_merge_applicator.2.1 4 4 300 [5]]
    decide
  · rw [C6_merge_applicator.2.2.1 1 4 300 [4] (4, 4) (by decide)]
    rw [C6_merge_applicator.2.1 4 4 300 []]
    decide

/-- C9: chunk isolation.  Pattern-mode encoding is the concatenation of the
independent per-chunk encodings in chunk order; a merge applied during
training touches each chunk separately, so a pair that is nowhere adjacent
inside a single chunk changes nothing, even when it occurs across the
boundary of the flattened text.  Concretely, for the adjacent chunks
`["a", "a"]` the aggregated statistics contain no pair at all, and encoding
those chunks with the merge `(97,97) -> 256` in the table leaves `[97, 97]`
unmerged. -/
theorem C9_chunk_isolation :
    (∀ (merges : List ((Nat × Nat) × Nat)) (chunks : List (List Nat)),
      encode_with_chunks merges chunks = (chunks.map (encode_chunk merges)).flatten) ∧
    (∀ (chunks : List (List Nat)) (pair : Nat × Nat) (idx : Nat),
      (∀ c ∈ chunks, pair ∉ adjPairs c) →
      chunks.map (fun c => merge c pair idx) = chunks) ∧
    statsOfChunks [[97], [97]] = [] ∧
    encode_with_chunks [((97, 97), 256)] [[97], [97]] = [97, 97] := by
  refine ⟨fun merges chunks => rfl, ?_, by decide, ?_⟩
  · intro chunks pair idx h
    induction chunks with
    | nil => rfl
    | cons c t ih =>
      rw [List.map_cons, merge_of_not_mem idx (h c (by simp)),
        ih (fun c' hc' => h c' (by simp [hc']))]
  · have h97 : encode_chunk [((97, 97), 256)] [97] = [97] := by
      rw [encode_chunk, show utf8Encode [97] = [97] from rfl]
      exact encode_loop_short (by decide)
    rw [encode_with_chunks, List.map_cons, List.map_cons, List.map_nil, h97]
    rfl

/-- Witness for C9: the no-merge clause at the concrete boundary instance. -/
theorem C9_chunk_isolation_witness :
    ([[1], [1]] : List (List Nat)).map (fun c => merge c (1, 1) 300) = [[1], [1]] :=
  C9_chunk_isolation.2.1 [[1], [1]] (1, 1) 300 (by decide)

/-- C10: for any merge table and vocabulary (hence for every trained
tokenizer, in either mode), encoding the empty text yields the empty token
sequence — in raw mode directly, in pattern mode because a splitter that
returns non-empty substrings covering the empty text returns no chunks — and
decoding the empty id sequence succeeds with the empty text. -/
theorem C10_empty_text :
    (∀ merges : List ((Nat × Nat) × Nat), encode_raw merges [] = []) ∧
    (∀ (merges : List ((Nat × Nat) × Nat)) (chunks : List (List Nat)),
      (∀ c ∈ chunks, c ≠ []) → chunks.flatten = [] →
      encode_with_chunks merges chunks = []) ∧
    (∀ vocab : List (Nat × List Nat), decode vocab [] = some []) := by
  refine ⟨?_, ?_, fun vocab => rfl⟩
  · intro merges
    rw [encode_raw, encode_with_chunks, List.map_cons, List.map_nil, encode_chunk,
      show utf8Encode [] = [] from rfl, encode_loop_short (by decide)]
    rfl
  · intro merges chunks hne hfl
    match chunks with
    | [] => rfl
    | c :: t =>
      rw [List.flatten_cons] at hfl
      exact absurd (List.append_eq_nil.mp hfl).1 (hne c (by simp))

/-- Witness for C10: pattern mode with the empty chunk list. -/
theorem C10_empty_text_witness :
    encode_with_chunks [((97, 97), 256)] [] = [] :=
  C10_empty_text.2.1 [((97, 97), 256)] [] (by simp) rfl

/-- C8: the per-chunk encode loop terminates.  Applying a merge to a sequence
in which the pair is adjacent strictly shortens it; the loop returns its input
unchanged when the sequence has fewer than two tokens or when no adjacent
pair is in the merge table; and otherwise it performs exactly one
strictly-shortening merge step and continues — so it exits exactly under the
two stop conditions. -/
theorem C8_encode_loop_terminates :
    (∀ (ids : List Nat) (p : Nat × Nat) (idx : Nat), p ∈ adjPairs ids →
      (merge ids p idx).length < ids.length) ∧
    (∀ (merges : List ((Nat × Nat) × Nat)) (ids : List Nat), ids.length < 2 →
      encode_loop merges ids = ids) ∧
    (∀ (merges : List ((Nat × Nat) × Nat)) (ids : List Nat),
      (∀ q ∈ adjPairs ids, lookupA merges q = none) → encode_loop merges ids = ids) ∧
    (∀ (merges : List ((Nat × Nat) × Nat)) (ids : List Nat), 2 ≤ ids.length →
      (∃ q ∈ adjPairs ids, (lookupA merges q).isSome) →
      ∃ p idx, p ∈ adjPairs ids ∧ lookupA merges p = some idx ∧
        (merge ids p idx).length < ids.length ∧
        encode_loop merges ids = encode_loop merges (merge ids p idx)) := by
  refine ⟨fun ids p idx h => merge_length_lt idx h,
    fun merges ids h => encode_loop_short h,
    fun merges ids h => encode_loop_no_merge h, ?_⟩
  intro merges ids h2 hex
  obtain ⟨p, idx, hadj, hlook, _, heq⟩ := encode_loop_progress h2 hex
  exact ⟨p, idx, hadj, hlook, merge_length_lt idx hadj, heq⟩

/-- Witness for C8 at concrete inputs. -/
theorem C8_encode_loop_terminates_witness :
    (merge [6, 6] (6, 6) 7).length < ([6, 6] : List Nat).length ∧
    encode_loop [((1, 2), 256)] [9] = [9] ∧
    encode_loop [((1, 2), 256)] [3, 4] = [3, 4] ∧
    (∃ p idx, p ∈ adjPairs [1, 2] ∧ lookupA [((1, 2), 256)] p = some idx ∧
      (merge [1, 2] p idx).length < ([1, 2] : List Nat).length ∧
      encode_loop [((1, 2), 256)] [1, 2] =
        encode_loop [((1, 2), 256)] (merge [1, 2] p idx)) :=
  ⟨C8_encode_loop_terminates.1 [6, 6] (6, 6) 7 (by decide),
   C8_encode_loop_terminates.2.1 [((1, 2), 256)] [9] (by decide),
   C8_encode_loop_terminates.2.2.1 [((1, 2), 256)] [3, 4] (by decide),
   C8_encode_loop_terminates.2.2.2 [((1, 2), 256)] [1, 2] (by decide) (by decide)⟩

/-- C3: each iteration of the encode loop merges the adjacent pair whose
merge-table id is lowest among all adjacent pairs present in the table, and
the loop stops when no adjacent pair is in the table.  In particular, a
tokenizer whose table records `(a,b) -> 256` and then `(256,c) -> 257`
encodes the three-byte chunk `a, b, c` to `[257]`, not `[256, c]`. -/
theorem C3_encode_priority :
    (∀ (merges : List ((Nat × Nat) × Nat)) (ids : List Nat), 2 ≤ ids.length →
      (∃ q ∈ adjPairs ids, (lookupA merges q).isSome) →
      ∃ p idx, p ∈ adjPairs ids ∧ lookupA merges p = some idx ∧
        (∀ q ∈ adjPairs ids, ∀ j, lookupA merges q = some j → idx ≤ j) ∧
        encode_loop merges ids = encode_loop merges (merge ids p idx)) ∧
    (∀ (merges : List ((Nat × Nat) × Nat)) (ids : List Nat),
      (∀ q ∈ adjPairs ids, lookupA merges q = none) → encode_loop merges ids = ids) ∧
    (∀ a b c : Nat, a < 256 → b < 256 → c < 256 →
      encode_loop [((a, b), 256), ((256, c), 257)] [a, b, c] = [257]) := by
  refine ⟨fun merges ids h2 hex => encode_loop_progress h2 hex,
    fun merges ids h => encode_loop_no_merge h, ?_⟩
  intro a b c ha hb hc
  have hlook1 : lookupA [((a, b), 256), ((256, c), 257)] (a, b) = some 256 := by
    rw [lookupA, if_pos rfl]
  have hlookbc : lookupA [((a, b), 256), ((256, c), 257)] (256, c) = some 257 := by
    have hne : ¬ ((a, b) = (256, c)) := by
      intro he
      cases he
      omega
    rw [lookupA, if_neg hne, lookupA, if_pos rfl]
  have hmin1 : minByRank [((a, b), 256), ((256, c), 257)]
      ((get_stats [a, b, c]).map Prod.fst) = some (a, b) := by
    by_cases hbc : ((a, b) : Nat × Nat) = (b, c)
    · have hkeys : (get_stats [a, b, c]).map Prod.fst = [(a, b)] := by
        rw [get_stats, show adjPairs [a, b, c] = [(a, b), (b, c)] from rfl,
          List.foldl_cons, List.foldl_cons, List.foldl_nil, bumpStat,
          bumpStat, if_pos hbc]
        rfl
      rw [hkeys, minByRank]
      rfl
    · have hkeys : (get_stats [a, b, c]).map Prod.fst = [(a, b), (b, c)] := by
        rw [get_stats, show adjPairs [a, b, c] = [(a, b), (b, c)] from rfl,
          List.foldl_cons, List.foldl_cons, List.foldl_nil, bumpStat,
          bumpStat, if_neg hbc]
        rfl
      rw [hkeys, minByRank]
      simp only [List.foldl_cons, List.foldl_nil]
      have hlbc : lookupA [((a, b), 256), ((256, c), 257)] (b, c) = none := by
        have h1 : ¬ ((a, b) = (b, c)) := hbc
        have h2 : ¬ ((256, c) = (b, c)) := by
          intro he
          cases he
          omega
        rw [lookupA, if_neg h1, lookupA, if_neg h2, lookupA]
      rw [hlbc, hlook1]
      rfl
  have hstep1 : encode_loop [((a, b), 256), ((256, c), 257)] [a, b, c] =
      encode_loop [((a, b), 256), ((256, c), 257)] [256, c] := by
    have := encode_loop_step_eq (by simp) hmin1 hlook1
    rwa [merge_cons_cons, if_pos rfl, merge_single] at this
  have hmin2 : minByRank [((a, b), 256), ((256, c), 257)]
      ((get_stats [256, c]).map Prod.fst) = some (256, c) := by
    rw [show (get_stats [256, c]).map Prod.fst = [(256, c)] from rfl, minByRank]
    rfl
  have hstep2 : encode_loop [((a, b), 256), ((256, c), 257)] [256, c] =
      encode_loop [((a, b), 256), ((256, c), 257)] [257] := by
    have := encode_loop_step_eq (by simp) hmin2 hlookbc
    rwa [merge_cons_cons, if_pos rfl, merge_nil] at this
  rw [hstep1, hstep2, encode_loop_short (by decide)]

/-- Witness for C3 at concrete inputs. -/
theorem C3_encode_priority_witness :
    (∃ p idx, p ∈ adjPairs [7, 8] ∧ lookupA [((7, 8), 256)] p = some idx ∧
      (∀ q ∈ adjPairs [7, 8], ∀ j, lookupA [((7, 8), 256)] q = some j → idx ≤ j) ∧
      encode_loop [((7, 8), 256)] [7, 8] =
        encode_loop [((7, 8), 256)] (merge [7, 8] p idx)) ∧
    encode_loop [((7, 8), 256)] [8, 9] = [8, 9] ∧
    encode_loop [((97, 98), 256), ((256, 99), 257)] [97, 98, 99] = [257] :=
  ⟨C3_encode_priority.1 [((7, 8), 256)] [7, 8] (by decide) (by decide),
   C3_encode_priority.2.1 [((7, 8), 256)] [8, 9] (by decide),
   C3_encode_priority.2.2 97 98 99 (by decide) (by decide) (by decide)⟩

/-- C4: after any successful training run, in either mode, every id in
`[0, 255]` maps in the vocabulary to the single byte of that value, and every
entry `(pair, idx)` of the merge table satisfies
`vocab[idx] = vocab[pair.1] ++ vocab[pair.2]` (`VocabCompat`), for all
entries. -/
theorem C4_vocab_invariant :
    (∀ (text : List Nat) (vs : Nat) (model : Model), (∀ c ∈ text, ValidScalar c) →
      train_raw text vs = some model →
      (∀ b, b < 256 → lookupA model.vocab b = some [b]) ∧
      VocabCompat model.merges model.vocab) ∧
    (∀ (textChunks : List (List Nat)) (vs : Nat) (model : Model),
      (∀ ch ∈ textChunks, ∀ c ∈ ch, ValidScalar c) →
      train_pattern textChunks vs = some model →
      (∀ b, b < 256 → lookupA model.vocab b = some [b]) ∧
      VocabCompat model.merges model.vocab) := by
  constructor
  · intro text vs model hvalid h
    obtain ⟨i', chunks', hinv⟩ := train_raw_inv hvalid h
    exact ⟨hinv.byte_vocab, hinv.concat⟩
  · intro textChunks vs model hvalid h
    obtain ⟨i', chunks', hinv⟩ := train_pattern_inv hvalid h
    exact ⟨hinv.byte_vocab, hinv.concat⟩

/-- Witness for C4 on the training text `"aaa"` with vocab size 257. -/
theorem C4_vocab_invariant_witness :
    train_raw [97, 97, 97] 257 = some ⟨[((97, 97), 256)], insertA initVocab 256 [97, 97]⟩ ∧
    lookupA (insertA initVocab 256 [97, 97]) 65 = some [65] ∧
    VocabCompat [((97, 97), 256)] (insertA initVocab 256 [97, 97]) := by
  have ht : train_raw [97, 97, 97] 257 =
      some ⟨[((97, 97), 256)], insertA initVocab 256 [97, 97]⟩ := by decide
  have h := C4_vocab_invariant.1 [97, 97, 97] 257
    ⟨[((97, 97), 256)], insertA initVocab 256 [97, 97]⟩ (by decide) ht
  exact ⟨ht, h.1 65 (by decide), h.2⟩

/-- C5: after any successful training run that records `k` merges, the merge
table keys are pairwise distinct pairs and its values, in insertion order,
are exactly the list `[256, 257, ..., 256 + k - 1]` — i.e. the merge of
iteration `i` received id `256 + i`. -/
theorem C5_merge_table_ids :
    (∀ (text : List Nat) (vs : Nat) (model : Model), (∀ c ∈ text, ValidScalar c) →
      train_raw text vs = some model →
      (model.merges.map Prod.fst).Nodup ∧
      model.merges.map Prod.snd = (List.range model.merges.length).map (256 + ·)) ∧
    (∀ (textChunks : List (List Nat)) (vs : Nat) (model : Model),
      (∀ ch ∈ textChunks, ∀ c ∈ ch, ValidScalar c) →
      train_pattern textChunks vs = some model →
      (model.merges.map Prod.fst).Nodup ∧
      model.merges.map Prod.snd = (List.range model.merges.length).map (256 + ·)) := by
  have main : ∀ (i' : Nat) (chunks' : List (List Nat)) (model : Model),
      Inv i' chunks' model.merges model.vocab →
      (model.merges.map Prod.fst).Nodup ∧
      model.merges.map Prod.snd = (List.range model.merges.length).map (256 + ·) := by
    intro i' chunks' model hinv
    have hlen : model.merges.length = i' := by
      have := congrArg List.length hinv.snd_eq
      simpa using this
    exact ⟨hinv.nodup, by rw [hlen]; exact hinv.snd_eq⟩
  constructor
  · intro text vs model hvalid h
    obtain ⟨i', chunks', hinv⟩ := train_raw_inv hvalid h
    exact main i' chunks' model hinv
  · intro textChunks vs model hvalid h
    obtain ⟨i', chunks', hinv⟩ := train_pattern_inv hvalid h
    exact main i' chunks' model hinv

/-- Witness for C5 on the training text `"aaaa"` with vocab size 258: two
merges `(97,97) -> 256` and `(256,256) -> 257`. -/
theorem C5_merge_table_ids_witness :
    train_raw [97, 97, 97, 97] 258 =
      some ⟨[((97, 97), 256), ((256, 256), 257)],
        insertA (insertA initVocab 256 [97, 97]) 257 [97, 97, 97, 97]⟩ ∧
    ([((97, 97), 256), ((256, 256), 257)].map Prod.fst).Nodup ∧
    [((97, 97), 256), ((256, 256), 257)].map Prod.snd =
      (List.range ([((97, 97), 256), ((256, 256), 257)].length)).map (256 + ·) := by
  have ht : train_raw [97, 97, 97, 97] 258 =
      some ⟨[((97, 97), 256), ((256, 256), 257)],
        insertA (insertA initVocab 256 [97, 97]) 257 [97, 97, 97, 97]⟩ := by decide
  have h := C5_merge_table_ids.1 [97, 97, 97, 97] 258
    ⟨[((97, 97), 256), ((256, 256), 257)],
      insertA (insertA initVocab 256 [97, 97]) 257 [97, 97, 97, 97]⟩ (by decide) ht
  exact ⟨ht, h.1, h.2⟩

/-- C1: round trip.  For every tokenizer trained in raw mode (on any valid
text and any vocab size) and every valid text `s`, decoding the encoding of
`s` returns exactly `s`; likewise in pattern mode, where encoding works on
any chunking of `s` (the splitter covers the whole input, so the chunks
flatten to `s`). -/
theorem C1_roundtrip :
    (∀ (trainText : List Nat) (vs : Nat) (model : Model),
      (∀ c ∈ trainText, ValidScalar c) → train_raw trainText vs = some model →
      ∀ s : List Nat, (∀ c ∈ s, ValidScalar c) →
        decode model.vocab (encode_raw model.merges s) = some s) ∧
    (∀ (trainChunks : List (List Nat)) (vs : Nat) (model : Model),
      (∀ ch ∈ trainChunks, ∀ c ∈ ch, ValidScalar c) →
      train_pattern trainChunks vs = some model →
      ∀ (s : List Nat) (chunks : List (List Nat)), chunks.flatten = s →
        (∀ c ∈ s, ValidScalar c) →
        decode model.vocab (encode_with_chunks model.merges chunks) = some s) := by
  have main : ∀ (model : Model), VocabCompat model.merges model.vocab →
      (∀ b, b < 256 → lookupA model.vocab b = some [b]) →
      ∀ (s : List Nat) (chunks : List (List Nat)), chunks.flatten = s →
        (∀ c ∈ s, ValidScalar c) →
        decode model.vocab (encode_with_chunks model.merges chunks) = some s := by
    intro model hcompat hbyte s chunks hfl hvalid
    have hvch : ∀ ch ∈ chunks, ∀ c ∈ ch, ValidScalar c := by
      intro ch hch c hc
      exact hvalid c (hfl ▸ List.mem_flatten.mpr ⟨ch, hch, hc⟩)
    rw [decode, decodeBytes_encode_with_chunks hcompat hbyte chunks hvch, hfl,
      Option.map_some', utf8DecodeLossy_utf8Encode hvalid]
  constructor
  · intro trainText vs model hvt h s hvalid
    obtain ⟨i', chunks', hinv⟩ := train_raw_inv hvt h
    exact main model hinv.concat hinv.byte_vocab s [s] (by simp) hvalid
  · intro trainChunks vs model hvt h s chunks hfl hvalid
    obtain ⟨i', chunks', hinv⟩ := train_pattern_inv hvt h
    exact main model hinv.concat hinv.byte_vocab s chunks hfl hvalid

/-- Witness for C1: tokenizer trained on `"aaa"`, round trip of a text with a
non-ASCII scalar, in raw mode, and of a chunked two-chunk text in pattern
mode. -/
theorem C1_roundtrip_witness :
    train_raw [97, 97, 97] 257 = some ⟨[((97, 97), 256)], insertA initVocab 256 [97, 97]⟩ ∧
    decode (insertA initVocab 256 [97, 97])
      (encode_raw [((97, 97), 256)] [104, 101, 128512]) = some [104, 101, 128512] ∧
    train_pattern [[98, 99]] 256 = some ⟨[], initVocab⟩ ∧
    decode initVocab (encode_with_chunks [] [[104, 105], [32, 97]]) =
      some [104, 105, 32, 97] := by
  have ht : train_raw [97, 97, 97] 257 =
      some ⟨[((97, 97), 256)], insertA initVocab 256 [97, 97]⟩ := by decide
  have ht2 : train_pattern [[98, 99]] 256 = some ⟨[], initVocab⟩ := by decide
  refine ⟨ht, ?_, ht2, ?_⟩
  · exact C1_roundtrip.1 [97, 97, 97] 257
      ⟨[((97, 97), 256)], insertA initVocab 256 [97, 97]⟩ (by decide) ht
      [104, 101, 128512] (by decide)
  · exact C1_roundtrip.2 [[98, 99]] 256 ⟨[], initVocab⟩ (by decide) ht2
      [104, 105, 32, 97] [[104, 105], [32, 97]] (by decide) (by decide)

/-- C7: decoding fails (with the `KeyError` / UnknownToken condition,
modelled as `none`) exactly when some id in the sequence has no vocabulary
entry.  When every id is known, decode concatenates the expansions in order
and interprets the bytes as lossy UTF-8, so it never fails on malformed
bytes; and whenever the byte string is not well formed, at least one
replacement character `0xFFFD` is substituted — equivalently, an output free
of replacement characters re-encodes exactly to the input bytes. -/
theorem C7_decode_failure_and_lossiness :
    (∀ (vocab : List (Nat × List Nat)) (ids : List Nat),
      decode vocab ids = none ↔ ∃ i ∈ ids, lookupA vocab i = none) ∧
    (∀ (vocab : List (Nat × List Nat)) (ids bs : List Nat),
      decodeBytes vocab ids = some bs → decode vocab ids = some (utf8DecodeLossy bs)) ∧
    (∀ bs : List Nat, 0xFFFD ∉ utf8DecodeLossy bs →
      utf8Encode (utf8DecodeLossy bs) = bs) := by
  refine ⟨?_, ?_, utf8Encode_utf8DecodeLossy⟩
  · intro vocab ids
    rw [decode, Option.map_eq_none', decodeBytes_eq_none]
  · intro vocab ids bs h
    rw [decode, h, Option.map_some']

/-- Witness for C7: an unknown id makes decode fail; known ids decode via
lossy UTF-8; a byte string decoded without replacement characters re-encodes
to itself. -/
theorem C7_decode_failure_and_lossiness_witness :
    decode initVocab [300] = none ∧
    decode initVocab [104, 105] = some (utf8DecodeLossy [104, 105]) ∧
    utf8Encode (utf8DecodeLossy [104, 105]) = [104, 105] :=
  ⟨(C7_decode_failure_and_lossiness.1 initVocab [300]).mpr ⟨300, by decide, by decide⟩,
   C7_decode_failure_and_lossiness.2.1 initVocab [104, 105] [104, 105] (by decide),
   C7_decode_failure_and_lossiness.2.2 [104, 105] (by decide)⟩

end MinBPE
